import Mathlib

/-!
Verification of the telemetry-processing core of the EWI breath-trainer
(`src/main.py`) against its natural-language specification.

The embedding models:
* the rolling history update at the end of `LongToneVisualizer.process_midi`
  (lines 196-213): `np.roll` by -1 followed by writing the newest sample is
  `List.tail ++ [x]`; the per-note statistics recompute is `update_stats`;
* the gap-bridging smoother of `LongToneVisualizer.update_graph`
  (lines 228-271): `velocity_smoothed` (anchor detection + gap interpolation,
  an in-place write loop embedded as a fold of `List.set` updates) and
  `velocity_final` (the 3-point centered moving average);
* the note-color assignment of `process_midi` (lines 148-151) over the fixed
  `NOTE_COLORS` palette, with the Python dict embedded as an association list;
* the consistency score of `render` (line 530).

Velocities live in `ℚ` (the source stores them in a float64 numpy array and
interpolates; all values arising here are exact small rationals), note ids in
`ℤ` with `-1` the "no note" sentinel.  `np.std` is the square root of the
population variance; the `Stats` structure stores the (rational) variance and
theorems about the standard deviation are phrased via `Real.sqrt` of it.
-/

/-- Number of velocity readings kept (`HISTORY_LENGTH = 300`, main.py line 14). -/
def HISTORY_LENGTH : ℕ := 300

/-- Fixed 12-entry color palette (`NOTE_COLORS`, main.py lines 24-37). -/
def NOTE_COLORS : List (ℕ × ℕ × ℕ) :=
  [(65, 156, 255), (255, 100, 100), (100, 255, 100), (255, 255, 100),
   (255, 100, 255), (100, 255, 255), (255, 150, 100), (150, 100, 255),
   (255, 200, 150), (150, 255, 150), (200, 150, 255), (255, 150, 200)]

/-- One history push (main.py lines 198-201): `np.roll(history, -1)` followed by
overwriting the last slot drops the oldest sample and appends the newest. -/
def push_sample (velHist : List ℚ) (noteHist : List ℤ) (vel : ℚ) (note : ℤ) :
    List ℚ × List ℤ :=
  (velHist.tail ++ [vel], noteHist.tail ++ [note])

/-- One sampling tick (main.py lines 196-201): the history advances only under
`if self.is_note_active`. -/
def tick (active : Bool) (velHist : List ℚ) (noteHist : List ℤ) (vel : ℚ) (note : ℤ) :
    List ℚ × List ℤ :=
  if active then push_sample velHist noteHist vel note else (velHist, noteHist)

/-- State produced by the `C` key handler (main.py lines 576-579): zeroed velocity
history, note history full of the `-1` sentinel, empty color table, color index 0.
The color table and round-robin index are the last component. -/
def clear_state : (List ℚ × List ℤ) × (List (ℕ × (ℕ × ℕ × ℕ)) × ℕ) :=
  ((List.replicate HISTORY_LENGTH 0, List.replicate HISTORY_LENGTH (-1)), ([], 0))

/-- Statistics record kept in `self.stats` (main.py lines 68-73).  The source
stores `np.std(...)`; here `variance` is its square, so the reported standard
deviation is `Real.sqrt variance`. -/
structure Stats where
  mean : ℚ
  variance : ℚ
  min : ℚ
  max : ℚ
deriving DecidableEq

/-- Filtered sample subset of main.py lines 205-207: keep the entries whose
note id equals the current note, then keep the strictly positive velocities. -/
def filtered_velocities (velHist : List ℚ) (noteHist : List ℤ) (note : ℤ) : List ℚ :=
  (((velHist.zip noteHist).filter (fun p => p.2 == note)).map Prod.fst).filter
    (fun v => decide (0 < v))

/-- Mean as computed by `np.mean`. -/
def list_mean (l : List ℚ) : ℚ := l.sum / l.length

/-- Population variance, the square of `np.std` (default `ddof=0`). -/
def list_variance (l : List ℚ) : ℚ :=
  ((l.map fun x => (x - list_mean l) ^ 2).sum) / l.length

/-- Minimum as computed by `np.min` on a nonempty array (0 if empty, unused). -/
def list_min (l : List ℚ) : ℚ :=
  match l with
  | [] => 0
  | x :: xs => xs.foldl min x

/-- Maximum as computed by `np.max` on a nonempty array (0 if empty, unused). -/
def list_max (l : List ℚ) : ℚ :=
  match l with
  | [] => 0
  | x :: xs => xs.foldl max x

/-- Statistics recompute of main.py lines 204-213: the four fields are updated
only under `if len(current_note_velocities) > 0`; otherwise `self.stats` keeps
its previous contents. -/
def update_stats (s : Stats) (velHist : List ℚ) (noteHist : List ℤ) (note : ℤ) : Stats :=
  let v := filtered_velocities velHist noteHist note
  if 0 < v.length then ⟨list_mean v, list_variance v, list_min v, list_max v⟩ else s

/-- Consistency score exactly as written in `render` (main.py line 530):
`100 - min(100, std_dev * 5) if mean > 0 else 0`. -/
def consistency_score (mean std_dev : ℚ) : ℚ :=
  if 0 < mean then 100 - min 100 (std_dev * 5) else 0

/-- Modelled from the spec's words (section 4.5), for comparison with
`consistency_score`: `max(0, 100 - 5 * std_dev)` when mean > 0, else 0. -/
def spec_consistency_score (mean std_dev : ℚ) : ℚ :=
  if 0 < mean then max 0 (100 - 5 * std_dev) else 0

/-- Note-color table state: the `self.note_colors` dict (as an association
list) together with the round-robin counter `self.color_index`. -/
structure ColorState where
  noteColors : List (ℕ × (ℕ × ℕ × ℕ))
  colorIndex : ℕ
deriving DecidableEq

/-- Color assignment on note-on (main.py lines 148-151): a color is drawn from
the palette at `color_index % len(NOTE_COLORS)` only if the note has no color
yet, and then the index advances. -/
def assign_color (cs : ColorState) (note : ℕ) : ColorState :=
  match cs.noteColors.lookup note with
  | some _ => cs
  | none =>
      ⟨(note, NOTE_COLORS.getD (cs.colorIndex % NOTE_COLORS.length) (0, 0, 0)) ::
        cs.noteColors, cs.colorIndex + 1⟩

/-- Gap threshold of the smoother (`gap_threshold = 20`, main.py line 233). -/
def gap_threshold : ℕ := 20

/-- Anchor positions: `np.where(velocity_history > 0)[0]` (main.py line 234),
in increasing order. -/
def non_zero_indices (v : List ℚ) : List ℕ :=
  (List.range v.length).filter (fun i => decide (0 < v.getD i 0))

/-- Linear interpolation between the two anchor velocities (main.py lines
256-257): `alpha = j / (gap_size + 1)`, `start_vel * (1 - alpha) + end_vel * alpha`. -/
def interp_vel (sv ev : ℚ) (gapSize j : ℕ) : ℚ :=
  sv * (1 - (j : ℚ) / ((gapSize : ℚ) + 1)) + ev * ((j : ℚ) / ((gapSize : ℚ) + 1))

/-- Value stored for the j-th gap slot (main.py line 258): the interpolated
velocity floored at `0.7 * min(start_vel, end_vel)`. -/
def bridged_vel (sv ev : ℚ) (gapSize j : ℕ) : ℚ :=
  max (interp_vel sv ev gapSize j) (min sv ev * (7 / 10))

/-- First `m` iterations of the inner write loop of main.py lines 253-258,
writing slots `startIdx + 1 .. startIdx + m`. `write_gap` below runs all
`gapSize` of them; the parameter `m` only serves the correctness proofs. -/
def write_upto (sv ev : ℚ) (startIdx gapSize m : ℕ) (acc : List ℚ) : List ℚ :=
  (List.range m).foldl
    (fun a j0 => a.set (startIdx + (j0 + 1)) (bridged_vel sv ev gapSize (j0 + 1))) acc

/-- Inner write loop of main.py lines 253-258: `for j in range(1, gap_size + 1)`. -/
def write_gap (sv ev : ℚ) (startIdx gapSize : ℕ) (acc : List ℚ) : List ℚ :=
  write_upto sv ev startIdx gapSize gapSize acc

/-- One iteration of the outer anchor-pair loop (main.py lines 237-258) for the
pair `p = (start_idx, end_idx)`: bridge the gap when
`gap_size <= gap_threshold and gap_size > 0`.  Anchor velocities are read from
the raw buffer, matching `start_vel = self.velocity_history[start_idx]`. -/
def bridge_step (raw : List ℚ) (acc : List ℚ) (p : ℕ × ℕ) : List ℚ :=
  let gapSize := p.2 - p.1 - 1
  if gapSize ≤ gap_threshold ∧ 0 < gapSize then
    write_gap (raw.getD p.1 0) (raw.getD p.2 0) p.1 gapSize acc
  else acc

/-- Gap-bridging pass of main.py lines 228-258: starting from a copy of the raw
buffer, run the write loop for each pair of consecutive anchors (guarded by
`if len(non_zero_indices) > 1`). -/
def velocity_smoothed (raw : List ℚ) : List ℚ :=
  let nz := non_zero_indices raw
  if 1 < nz.length then (nz.zip nz.tail).foldl (bridge_step raw) raw else raw

/-- Moving-average pass of main.py lines 268-271: for each interior index with
positive bridged value, replace it by the 3-point centered mean of the bridged
array (reads are from `velocity_smoothed`, writes go to the fresh copy). -/
def velocity_final (sm : List ℚ) : List ℚ :=
  (List.range sm.length).map fun i =>
    if 1 ≤ i ∧ i + 1 < sm.length ∧ 0 < sm.getD i 0 then
      (sm.getD (i - 1) 0 + sm.getD i 0 + sm.getD (i + 1) 0) / 3
    else sm.getD i 0

/-! ## Basic lemmas about the history push -/

/-- A push on nonempty parallel buffers keeps both lengths. -/
theorem push_sample_length (velHist : List ℚ) (noteHist : List ℤ) (vel : ℚ) (note : ℤ)
    (hv : velHist ≠ []) (hn : noteHist ≠ []) :
    (push_sample velHist noteHist vel note).1.length = velHist.length ∧
    (push_sample velHist noteHist vel note).2.length = noteHist.length := by
  have hv' : 0 < velHist.length := List.length_pos.mpr hv
  have hn' : 0 < noteHist.length := List.length_pos.mpr hn
  constructor <;> simp [push_sample, List.length_tail] <;> omega

/-! ## Claim C2: every tick advances the buffer -/

/-- Claim C2 (corrected): the counterexample below shows the claim as frozen is
false, because the history push is guarded by `is_note_active`.  This theorem
proves the code's actual behaviour: a tick evicts the oldest sample and appends
the current (velocity, note) sample exactly when a note is active, and leaves
both buffers completely unchanged otherwise. -/
theorem tick_pushes_iff_active (velHist : List ℚ) (noteHist : List ℤ) (vel : ℚ) (note : ℤ) :
    tick true velHist noteHist vel note = (velHist.tail ++ [vel], noteHist.tail ++ [note]) ∧
    tick false velHist noteHist vel note = (velHist, noteHist) := by
  simp [tick, push_sample]

/-- Claim C2, counterexample: with no active note (`is_note_active = False`),
ticking the state with current velocity 9 leaves the velocity history `[1,2,3]`
unchanged instead of advancing it to `[2,3,9]` as the claim demands. -/
theorem tick_inactive_does_not_push :
    (tick false [1, 2, 3] [5, 5, 5] 9 60).1 ≠ ([1, 2, 3] : List ℚ).tail ++ [9] := by
  decide

/-! ## Claim C3: statistics on an empty filtered subset -/

/-- Claim C3 (corrected): when the filtered subset is empty the code skips the
update entirely (`if len(current_note_velocities) > 0`), so the statistics
retain whatever values they previously held — they are all zero only if they
were never set since initialization or clear. -/
theorem update_stats_empty_keeps_previous (s : Stats) (velHist : List ℚ)
    (noteHist : List ℤ) (note : ℤ)
    (h : filtered_velocities velHist noteHist note = []) :
    update_stats s velHist noteHist note = s := by
  simp [update_stats, h]

/-- Claim C3, witness for the corrected statement at a concrete input. -/
theorem update_stats_empty_keeps_previous_witness :
    filtered_velocities [0] [62] 62 = [] ∧
    update_stats ⟨1, 2, 3, 4⟩ [0] [62] 62 = ⟨1, 2, 3, 4⟩ :=
  ⟨by decide, update_stats_empty_keeps_previous ⟨1, 2, 3, 4⟩ [0] [62] 62 (by decide)⟩

/-- Claim C3, counterexample: a state whose statistics were set by an earlier
note (mean 70) receives a push for note 62 with velocity 0; the filtered subset
is empty, yet the reported statistics stay at the stale nonzero values instead
of being zero as claimed. -/
theorem update_stats_empty_not_zero :
    filtered_velocities [0] [62] 62 = [] ∧
    update_stats ⟨70, 0, 70, 70⟩ [0] [62] 62 ≠ ⟨0, 0, 0, 0⟩ := by
  constructor
  · decide
  · decide

/-! ## Claim C6: constant buffer length and clear -/

/-- Claim C6: pushing drops exactly the oldest sample and appends exactly the
newest one, so both history lengths are invariant, and `clear` resets every
slot to the sentinel (0, -1), empties the color table and resets the
round-robin index to 0. -/
theorem push_keeps_length_and_clear_resets :
    (∀ (velHist : List ℚ) (noteHist : List ℤ) (vel : ℚ) (note : ℤ),
      velHist ≠ [] → noteHist ≠ [] →
      (push_sample velHist noteHist vel note).1.length = velHist.length ∧
      (push_sample velHist noteHist vel note).2.length = noteHist.length ∧
      (push_sample velHist noteHist vel note).1 = velHist.tail ++ [vel] ∧
      (push_sample velHist noteHist vel note).2 = noteHist.tail ++ [note]) ∧
    (∀ i, i < HISTORY_LENGTH →
      clear_state.1.1.getD i 1 = 0 ∧ clear_state.1.2.getD i 0 = -1) ∧
    clear_state.1.1.length = HISTORY_LENGTH ∧
    clear_state.1.2.length = HISTORY_LENGTH ∧
    clear_state.2.1 = [] ∧ clear_state.2.2 = 0 := by
  refine ⟨fun velHist noteHist vel note hv hn => ?_, fun i hi => ?_, by simp [clear_state],
    by simp [clear_state], rfl, rfl⟩
  · exact ⟨(push_sample_length velHist noteHist vel note hv hn).1,
      (push_sample_length velHist noteHist vel note hv hn).2, rfl, rfl⟩
  · constructor <;>
      simp [clear_state, List.getD_eq_getElem?_getD, List.getElem?_replicate, hi]

/-- Claim C6, witness at a concrete push. -/
theorem push_keeps_length_and_clear_resets_witness :
    (push_sample [1, 2] [3, 4] 9 60).1.length = 2 ∧
    (push_sample [1, 2] [3, 4] 9 60).1 = [2, 9] := by
  have h := push_keeps_length_and_clear_resets.1 [1, 2] [3, 4] 9 60
    (by decide) (by decide)
  exact ⟨h.1, h.2.2.1⟩

/-! ## Claim C8: the two consistency-score formulas agree -/

/-- Claim C8: for every `std_dev ≥ 0` and every `mean`, the specification's
formula `max(0, 100 - 5*std_dev)` (when mean > 0, else 0) and the code's
expression `100 - min(100, std_dev*5)` (when mean > 0, else 0) coincide. -/
theorem consistency_score_eq_spec (mean std_dev : ℚ) (h : 0 ≤ std_dev) :
    spec_consistency_score mean std_dev = consistency_score mean std_dev := by
  unfold spec_consistency_score consistency_score
  by_cases hm : 0 < mean
  · simp only [if_pos hm]
    rcases le_total 100 (std_dev * 5) with h5 | h5
    · rw [min_eq_left h5, max_eq_left (by linarith)]
      ring
    · rw [min_eq_right h5, max_eq_right (by linarith)]
      ring
  · simp only [if_neg hm]

/-- Claim C8, witness: both formulas give 0 at mean 50, std-dev 30. -/
theorem consistency_score_eq_spec_witness :
    (0 : ℚ) ≤ 30 ∧ spec_consistency_score 50 30 = consistency_score 50 30 :=
  ⟨by norm_num, consistency_score_eq_spec 50 30 (by norm_num)⟩

/-! ## Claim C9: round-robin color assignment -/

/-- Folding `assign_color` over a list of pairwise-distinct, not-yet-seen notes:
the round-robin index advances once per note, unrelated notes keep their
lookup result, and the i-th note receives the palette entry at
`(colorIndex + i) % 12`. -/
theorem assign_color_foldl (notes : List ℕ) :
    ∀ cs : ColorState, notes.Nodup →
    (∀ n ∈ notes, cs.noteColors.lookup n = none) →
    (notes.foldl assign_color cs).colorIndex = cs.colorIndex + notes.length ∧
    (∀ n, n ∉ notes →
      (notes.foldl assign_color cs).noteColors.lookup n = cs.noteColors.lookup n) ∧
    (∀ i, (h : i < notes.length) →
      (notes.foldl assign_color cs).noteColors.lookup (notes.get ⟨i, h⟩) =
        some (NOTE_COLORS.getD ((cs.colorIndex + i) % NOTE_COLORS.length) (0, 0, 0))) := by
  induction notes with
  | nil => intro cs _ _; simp
  | cons n ns ih =>
      intro cs hnd hfresh
      have hn : cs.noteColors.lookup n = none := hfresh n (by simp)
      have hcs' : assign_color cs n =
          ⟨(n, NOTE_COLORS.getD (cs.colorIndex % NOTE_COLORS.length) (0, 0, 0)) ::
            cs.noteColors, cs.colorIndex + 1⟩ := by
        simp [assign_color, hn]
      have hnodup : ns.Nodup := (List.nodup_cons.mp hnd).2
      have hnmem : n ∉ ns := (List.nodup_cons.mp hnd).1
      have hfresh' : ∀ m ∈ ns, (assign_color cs n).noteColors.lookup m = none := by
        intro m hm
        have hne : m ≠ n := fun he => hnmem (he ▸ hm)
        have hb : (m == n) = false := beq_eq_false_iff_ne.mpr hne
        rw [hcs']
        simp only [List.lookup_cons, hb]
        exact hfresh m (by simp [hm])
      obtain ⟨hidx, hother, hget⟩ := ih (assign_color cs n) hnodup hfresh'
      refine ⟨?_, ?_, ?_⟩
      · rw [List.foldl_cons, hidx, hcs']
        simp only [List.length_cons]
        omega
      · intro m hm
        have hmn : m ≠ n := fun he => hm (by simp [he])
        have hmns : m ∉ ns := fun hc => hm (by simp [hc])
        have hb : (m == n) = false := beq_eq_false_iff_ne.mpr hmn
        rw [List.foldl_cons, hother m hmns, hcs']
        simp only [List.lookup_cons, hb]
      · intro i hi
        match i with
        | 0 =>
            rw [List.foldl_cons]
            have h0 : ((n :: ns).get ⟨0, hi⟩) = n := rfl
            have hb : (n == n) = true := beq_self_eq_true n
            rw [h0, hother n hnmem, hcs']
            simp only [List.lookup_cons, hb, Nat.add_zero]
        | i + 1 =>
            rw [List.foldl_cons]
            have hi' : i < ns.length := by simpa using hi
            have h1 : ((n :: ns).get ⟨i + 1, hi⟩) = ns.get ⟨i, hi'⟩ := rfl
            rw [h1, hget i hi', hcs']
            have harith : cs.colorIndex + 1 + i = cs.colorIndex + (i + 1) := by omega
            rw [harith]

/-- Distinct palette slots hold distinct colors. -/
theorem NOTE_COLORS_getD_injective :
    ∀ i, i < 12 → ∀ j, j < 12 → i ≠ j →
      NOTE_COLORS.getD i (0, 0, 0) ≠ NOTE_COLORS.getD j (0, 0, 0) := by
  decide

/-- Claim C9: starting from a cleared color table, 12 pairwise-distinct notes
receive pairwise-distinct palette colors (the i-th gets palette slot i); a 13th
fresh note wraps around and is assigned palette slot 0; and a note-on for a
note that already has a color never changes the color state. -/
theorem first_twelve_notes_distinct_colors (notes : List ℕ) (hnd : notes.Nodup)
    (hlen : notes.length = 12) :
    (∀ i j, (hi : i < notes.length) → (hj : j < notes.length) → i ≠ j →
      (notes.foldl assign_color ⟨[], 0⟩).noteColors.lookup (notes.get ⟨i, hi⟩) ≠
      (notes.foldl assign_color ⟨[], 0⟩).noteColors.lookup (notes.get ⟨j, hj⟩)) ∧
    (∀ n, n ∉ notes →
      (assign_color (notes.foldl assign_color ⟨[], 0⟩) n).noteColors.lookup n =
        some (NOTE_COLORS.getD 0 (0, 0, 0))) ∧
    (∀ (cs : ColorState) (n : ℕ), (cs.noteColors.lookup n).isSome →
      assign_color cs n = cs) := by
  have hfresh : ∀ n ∈ notes, (⟨[], 0⟩ : ColorState).noteColors.lookup n = none := by
    intro n _; simp
  obtain ⟨hidx, hother, hget⟩ := assign_color_foldl notes ⟨[], 0⟩ hnd hfresh
  have hlen12 : NOTE_COLORS.length = 12 := by decide
  refine ⟨?_, ?_, ?_⟩
  · intro i j hi hj hij
    rw [hget i hi, hget j hj]
    intro hcon
    have hij' : NOTE_COLORS.getD ((0 + i) % NOTE_COLORS.length) (0, 0, 0) =
        NOTE_COLORS.getD ((0 + j) % NOTE_COLORS.length) (0, 0, 0) :=
      Option.some_injective _ hcon
    have hi12 : (0 + i) % NOTE_COLORS.length = i := by
      rw [hlen12]; omega
    have hj12 : (0 + j) % NOTE_COLORS.length = j := by
      rw [hlen12]; omega
    rw [hi12, hj12] at hij'
    exact NOTE_COLORS_getD_injective i (by omega) j (by omega) hij hij'
  · intro n hn
    have hlook : (notes.foldl assign_color ⟨[], 0⟩).noteColors.lookup n = none := by
      rw [hother n hn]; simp
    have hidx' : (notes.foldl assign_color ⟨[], 0⟩).colorIndex = 12 := by
      rw [hidx, hlen]
    rw [assign_color, hlook]
    simp [hidx', hlen12, List.lookup_cons]
  · intro cs n hsome
    rw [assign_color]
    obtain ⟨c, hc⟩ := Option.isSome_iff_exists.mp hsome
    rw [hc]

/-- Claim C9, witness: notes 60..71 then 72 from a cleared table; the 13th note
gets palette slot 0. -/
theorem first_twelve_notes_distinct_colors_witness :
    (assign_color
      (List.foldl assign_color ⟨[], 0⟩ [60, 61, 62, 63, 64, 65, 66, 67, 68, 69, 70, 71])
      72).noteColors.lookup 72 = some (NOTE_COLORS.getD 0 (0, 0, 0)) :=
  (first_twelve_notes_distinct_colors [60, 61, 62, 63, 64, 65, 66, 67, 68, 69, 70, 71]
    (by decide) (by decide)).2.1 72 (by decide)

/-! ## Claim C7: statistics on a nonempty filtered subset -/

/-- Claim C7: whenever the filtered subset (samples of the current note with
positive velocity) is nonempty, the recomputed statistics are exactly its mean,
its population variance (so the reported `np.std` is the square root of the
stored `variance`), its minimum and its maximum; samples of other notes and
zero-velocity sentinels are excluded by the filter itself. -/
theorem update_stats_matches_subset (s : Stats) (velHist : List ℚ) (noteHist : List ℤ)
    (note : ℤ) (h : filtered_velocities velHist noteHist note ≠ []) :
    update_stats s velHist noteHist note =
      ⟨list_mean (filtered_velocities velHist noteHist note),
       list_variance (filtered_velocities velHist noteHist note),
       list_min (filtered_velocities velHist noteHist note),
       list_max (filtered_velocities velHist noteHist note)⟩ ∧
    Real.sqrt (((update_stats s velHist noteHist note).variance : ℝ)) =
      Real.sqrt ((list_variance (filtered_velocities velHist noteHist note) : ℝ)) := by
  have hpos : 0 < (filtered_velocities velHist noteHist note).length :=
    List.length_pos.mpr h
  have h1 : update_stats s velHist noteHist note =
      ⟨list_mean (filtered_velocities velHist noteHist note),
       list_variance (filtered_velocities velHist noteHist note),
       list_min (filtered_velocities velHist noteHist note),
       list_max (filtered_velocities velHist noteHist note)⟩ := by
    simp [update_stats, hpos]
  exact ⟨h1, by rw [h1]⟩

/-- Numeric bracket for the standard deviation of the sample [60, 70, 80]. -/
theorem sqrt_variance_bounds :
    8.164 < Real.sqrt ((200 / 3 : ℚ) : ℝ) ∧ Real.sqrt ((200 / 3 : ℚ) : ℝ) < 8.166 := by
  have hc : ((200 / 3 : ℚ) : ℝ) = 200 / 3 := by norm_num
  rw [hc]
  constructor
  · rw [show (8.164 : ℝ) = 8.164 from rfl]
    have := (Real.lt_sqrt (by norm_num : (0 : ℝ) ≤ 8.164)).mpr
      (by norm_num : (8.164 : ℝ) ^ 2 < 200 / 3)
    exact this
  · exact (Real.sqrt_lt' (by norm_num : (0 : ℝ) < 8.166)).mpr
      (by norm_num : (200 : ℝ) / 3 < 8.166 ^ 2)

/-- Claim C7, witness: a single active note 60 with samples [60, 70, 80] (and a
sample of note 62 that the filter excludes) yields mean 70, min 60, max 80 and
a population standard deviation strictly between 8.164 and 8.166. -/
theorem update_stats_matches_subset_witness :
    filtered_velocities [60, 70, 80, 50] [60, 60, 60, 62] 60 = [60, 70, 80] ∧
    update_stats ⟨0, 0, 0, 0⟩ [60, 70, 80, 50] [60, 60, 60, 62] 60 =
      ⟨70, 200 / 3, 60, 80⟩ ∧
    8.164 < Real.sqrt
      (((update_stats ⟨0, 0, 0, 0⟩ [60, 70, 80, 50] [60, 60, 60, 62] 60).variance : ℝ)) ∧
    Real.sqrt
      (((update_stats ⟨0, 0, 0, 0⟩ [60, 70, 80, 50] [60, 60, 60, 62] 60).variance : ℝ))
      < 8.166 := by
  have hf : filtered_velocities [60, 70, 80, 50] [60, 60, 60, 62] 60 = [60, 70, 80] := by
    decide
  have h := update_stats_matches_subset ⟨0, 0, 0, 0⟩ [60, 70, 80, 50] [60, 60, 60, 62] 60
    (by decide)
  have hst : update_stats ⟨0, 0, 0, 0⟩ [60, 70, 80, 50] [60, 60, 60, 62] 60 =
      ⟨70, 200 / 3, 60, 80⟩ := by
    rw [h.1, hf]
    norm_num [list_mean, list_variance, list_min, list_max, Stats.mk.injEq]
  have hvar : (update_stats ⟨0, 0, 0, 0⟩ [60, 70, 80, 50] [60, 60, 60, 62] 60).variance =
      200 / 3 := by rw [hst]
  refine ⟨hf, hst, ?_, ?_⟩
  · rw [hvar]; exact sqrt_variance_bounds.1
  · rw [hvar]; exact sqrt_variance_bounds.2

/-! ## Structural lemmas for the gap-bridging write loop -/

/-- Setting a slot leaves every other slot's `getD` unchanged. -/
theorem getD_set_ne (l : List ℚ) (i k : ℕ) (hik : i ≠ k) (v d : ℚ) :
    (l.set i v).getD k d = l.getD k d := by
  simp [List.getD_eq_getElem?_getD, List.getElem?_set_ne hik]

/-- Setting an in-bounds slot makes its `getD` the written value. -/
theorem getD_set_self (l : List ℚ) (i : ℕ) (hi : i < l.length) (v d : ℚ) :
    (l.set i v).getD i d = v := by
  simp [List.getD_eq_getElem?_getD, List.getElem?_set_self hi]

/-- Unfolding one more iteration of the write loop. -/
theorem write_upto_succ (sv ev : ℚ) (s g m : ℕ) (acc : List ℚ) :
    write_upto sv ev s g (m + 1) acc =
      (write_upto sv ev s g m acc).set (s + (m + 1)) (bridged_vel sv ev g (m + 1)) := by
  simp only [write_upto, List.range_succ, List.foldl_append, List.foldl_cons, List.foldl_nil]

/-- The write loop never changes the buffer length. -/
theorem write_upto_length (sv ev : ℚ) (s g : ℕ) :
    ∀ (m : ℕ) (acc : List ℚ), (write_upto sv ev s g m acc).length = acc.length := by
  intro m
  induction m with
  | zero => intro acc; rfl
  | succ m ih => intro acc; rw [write_upto_succ, List.length_set, ih]

/-- Slots outside `startIdx+1 .. startIdx+m` are untouched by the write loop. -/
theorem write_upto_getD_frame (sv ev : ℚ) (s g : ℕ) (k : ℕ) (d : ℚ) :
    ∀ (m : ℕ) (acc : List ℚ), ¬(s < k ∧ k ≤ s + m) →
    (write_upto sv ev s g m acc).getD k d = acc.getD k d := by
  intro m
  induction m with
  | zero => intro acc _; rfl
  | succ m ih =>
      intro acc h
      rw [write_upto_succ, getD_set_ne _ _ _ (by omega) _ _, ih acc (by omega)]

/-- Slots inside `startIdx+1 .. startIdx+m` receive their bridged value. -/
theorem write_upto_getD_write (sv ev : ℚ) (s g : ℕ) (k : ℕ) (d : ℚ) :
    ∀ (m : ℕ) (acc : List ℚ), s + m < acc.length → s < k → k ≤ s + m →
    (write_upto sv ev s g m acc).getD k d = bridged_vel sv ev g (k - s) := by
  intro m
  induction m with
  | zero => intro acc _ h1 h2; omega
  | succ m ih =>
      intro acc hlen h1 h2
      by_cases hk : k = s + (m + 1)
      · rw [write_upto_succ, hk,
          getD_set_self _ _ (by rw [write_upto_length]; omega) _ _]
        have : s + (m + 1) - s = m + 1 := by omega
        rw [this]
      · rw [write_upto_succ, getD_set_ne _ _ _ (by omega) _ _,
          ih acc (by omega) h1 (by omega)]

/-- A bridge step never changes the buffer length. -/
theorem bridge_step_length (raw acc : List ℚ) (p : ℕ × ℕ) :
    (bridge_step raw acc p).length = acc.length := by
  by_cases h : p.2 - p.1 - 1 ≤ gap_threshold ∧ 0 < p.2 - p.1 - 1
  · simp only [bridge_step, write_gap, if_pos h]
    rw [write_upto_length]
  · simp only [bridge_step, if_neg h]

/-- A bridge step leaves slot `k` unchanged unless its pair strictly contains
`k` and its gap passes the bridging test. -/
theorem bridge_step_getD_frame (raw acc : List ℚ) (p : ℕ × ℕ) (k : ℕ) (d : ℚ)
    (h : ¬(p.1 < k ∧ k < p.2 ∧ p.2 - p.1 - 1 ≤ gap_threshold ∧ 0 < p.2 - p.1 - 1)) :
    (bridge_step raw acc p).getD k d = acc.getD k d := by
  by_cases hg : p.2 - p.1 - 1 ≤ gap_threshold ∧ 0 < p.2 - p.1 - 1
  · simp only [bridge_step, write_gap, if_pos hg]
    exact write_upto_getD_frame _ _ _ _ _ _ _ _ (by
      intro hc
      exact h ⟨hc.1, by omega, hg⟩)
  · simp only [bridge_step, if_neg hg]

/-- A bridge step on the pair `(s, e)` with a passing gap writes slot `k`
strictly inside the pair to its bridged value. -/
theorem bridge_step_getD_write (raw acc : List ℚ) (s e k : ℕ) (d : ℚ)
    (hg : e - s - 1 ≤ gap_threshold ∧ 0 < e - s - 1)
    (h1 : s < k) (h2 : k < e) (hlen : e ≤ acc.length) :
    (bridge_step raw acc (s, e)).getD k d =
      bridged_vel (raw.getD s 0) (raw.getD e 0) (e - s - 1) (k - s) := by
  simp only [bridge_step, write_gap]
  rw [if_pos hg]
  exact write_upto_getD_write _ _ _ _ _ _ _ _ (by omega) h1 (by omega)

/-- Folding bridge steps never changes the buffer length. -/
theorem foldl_bridge_length (raw : List ℚ) :
    ∀ (L : List (ℕ × ℕ)) (acc : List ℚ),
    (L.foldl (bridge_step raw) acc).length = acc.length := by
  intro L
  induction L with
  | nil => intro acc; rfl
  | cons p T ih => intro acc; rw [List.foldl_cons, ih, bridge_step_length]

/-- Folding bridge steps leaves slot `k` unchanged when no processed pair both
strictly contains `k` and passes the bridging test. -/
theorem foldl_bridge_frame (raw : List ℚ) (k : ℕ) (d : ℚ) :
    ∀ (L : List (ℕ × ℕ)) (acc : List ℚ),
    (∀ p ∈ L, ¬(p.1 < k ∧ k < p.2 ∧ p.2 - p.1 - 1 ≤ gap_threshold ∧ 0 < p.2 - p.1 - 1)) →
    (L.foldl (bridge_step raw) acc).getD k d = acc.getD k d := by
  intro L
  induction L with
  | nil => intro acc _; rfl
  | cons p T ih =>
      intro acc h
      rw [List.foldl_cons, ih _ (fun q hq => h q (by simp [hq])),
        bridge_step_getD_frame _ _ _ _ _ (h p (by simp))]

/-- Once slot `k` holds the bridged value of the unique pair `(s, e)` that can
strictly contain it, further bridge steps keep that value. -/
theorem foldl_bridge_keep (raw : List ℚ) (s e k : ℕ) (d : ℚ)
    (hg : e - s - 1 ≤ gap_threshold ∧ 0 < e - s - 1)
    (h1 : s < k) (h2 : k < e) (hel : e ≤ raw.length) :
    ∀ (L : List (ℕ × ℕ)) (acc : List ℚ), acc.length = raw.length →
    (∀ p ∈ L, p.1 < k → k < p.2 → p = (s, e)) →
    acc.getD k d = bridged_vel (raw.getD s 0) (raw.getD e 0) (e - s - 1) (k - s) →
    (L.foldl (bridge_step raw) acc).getD k d =
      bridged_vel (raw.getD s 0) (raw.getD e 0) (e - s - 1) (k - s) := by
  intro L
  induction L with
  | nil => intro acc _ _ hacc; exact hacc
  | cons p T ih =>
      intro acc halen hcont hacc
      rw [List.foldl_cons]
      by_cases hp : p.1 < k ∧ k < p.2
      · have hpe : p = (s, e) := hcont p (by simp) hp.1 hp.2
        subst hpe
        refine ih _ (by rw [bridge_step_length, halen])
          (fun q hq => hcont q (by simp [hq])) ?_
        rw [bridge_step_getD_write raw acc s e k d hg h1 h2 (by omega)]
      · refine ih _ (by rw [bridge_step_length, halen])
          (fun q hq => hcont q (by simp [hq])) ?_
        rw [bridge_step_getD_frame _ _ _ _ _ (fun hc => hp ⟨hc.1, hc.2.1⟩), hacc]

/-- Folding bridge steps over a pair list containing `(s, e)` — with `(s, e)`
the only pair that can strictly contain `k` — writes slot `k` to its bridged
value. -/
theorem foldl_bridge_write (raw : List ℚ) (s e k : ℕ) (d : ℚ)
    (hg : e - s - 1 ≤ gap_threshold ∧ 0 < e - s - 1)
    (h1 : s < k) (h2 : k < e) (hel : e ≤ raw.length) :
    ∀ (L : List (ℕ × ℕ)) (acc : List ℚ), acc.length = raw.length →
    (s, e) ∈ L →
    (∀ p ∈ L, p.1 < k → k < p.2 → p = (s, e)) →
    (L.foldl (bridge_step raw) acc).getD k d =
      bridged_vel (raw.getD s 0) (raw.getD e 0) (e - s - 1) (k - s) := by
  intro L
  induction L with
  | nil => intro acc _ hmem _; exact absurd hmem (List.not_mem_nil _)
  | cons p T ih =>
      intro acc halen hmem hcont
      rw [List.foldl_cons]
      by_cases hpe : p = (s, e)
      · subst hpe
        refine foldl_bridge_keep raw s e k d hg h1 h2 hel T _
          (by rw [bridge_step_length, halen])
          (fun q hq => hcont q (by simp [hq])) ?_
        rw [bridge_step_getD_write raw acc s e k d hg h1 h2 (by omega)]
      · have hmem' : (s, e) ∈ T := by
          rcases List.mem_cons.mp hmem with h | h
          · exact absurd h.symm hpe
          · exact h
        exact ih _ (by rw [bridge_step_length, halen]) hmem'
          (fun q hq => hcont q (by simp [hq]))

/-! ## Anchor positions and consecutive-anchor pairs -/

/-- Membership in `non_zero_indices`. -/
theorem mem_non_zero_indices (v : List ℚ) (i : ℕ) :
    i ∈ non_zero_indices v ↔ i < v.length ∧ 0 < v.getD i 0 := by
  simp [non_zero_indices, List.mem_filter, List.mem_range]

/-- Anchor positions are listed in strictly increasing order. -/
theorem non_zero_indices_sorted (v : List ℚ) :
    List.Pairwise (· < ·) (non_zero_indices v) :=
  List.Pairwise.filter _ (List.pairwise_lt_range v.length)

/-- A pair taken from `l.zip l.tail` of a strictly sorted list consists of two
members of `l` in order, with no member of `l` strictly between them. -/
theorem zip_tail_adjacent {l : List ℕ} (hs : List.Pairwise (· < ·) l) {p : ℕ × ℕ}
    (hmem : p ∈ l.zip l.tail) :
    p.1 ∈ l ∧ p.2 ∈ l ∧ p.1 < p.2 ∧ ∀ m ∈ l, m ≤ p.1 ∨ p.2 ≤ m := by
  induction l with
  | nil => simp at hmem
  | cons x xs ih =>
      cases xs with
      | nil => simp at hmem
      | cons y ys =>
          obtain ⟨s, e⟩ := p
          have hx : ∀ a ∈ y :: ys, x < a := (List.pairwise_cons.mp hs).1
          have hxs : List.Pairwise (· < ·) (y :: ys) := (List.pairwise_cons.mp hs).2
          have hy : ∀ a ∈ ys, y < a := (List.pairwise_cons.mp hxs).1
          rw [show (x :: y :: ys).tail = y :: ys from rfl, List.zip_cons_cons] at hmem
          rcases List.mem_cons.mp hmem with heq | hmem'
          · injection heq with hsx hey
            subst hsx; subst hey
            refine ⟨by simp, by simp, hx e (by simp), ?_⟩
            intro m hm
            rcases List.mem_cons.mp hm with h | h
            · exact Or.inl (le_of_eq h)
            · rcases List.mem_cons.mp h with h' | h'
              · exact Or.inr (le_of_eq h'.symm)
              · exact Or.inr (le_of_lt (hy m h'))
          · have htl : (y :: ys).zip ys = (y :: ys).zip (y :: ys).tail := rfl
            rw [htl] at hmem'
            obtain ⟨h1, h2, h3, h4⟩ := ih hxs hmem'
            refine ⟨by simp [h1], by simp [h2], h3, ?_⟩
            intro m hm
            rcases List.mem_cons.mp hm with h | h
            · subst h
              exact Or.inl (le_of_lt (hx _ h1))
            · exact h4 m h
  
/-- Two members of a strictly sorted list with no member strictly between them
form a consecutive pair of `l.zip l.tail`. -/
theorem adjacent_of_no_anchor_between {l : List ℕ} (hs : List.Pairwise (· < ·) l)
    {s e : ℕ} (hsm : s ∈ l) (hem : e ∈ l) (hse : s < e)
    (hbetween : ∀ m ∈ l, ¬(s < m ∧ m < e)) :
    (s, e) ∈ l.zip l.tail := by
  induction l with
  | nil => simp at hsm
  | cons x xs ih =>
      have hx : ∀ a ∈ xs, x < a := (List.pairwise_cons.mp hs).1
      have hxs : List.Pairwise (· < ·) xs := (List.pairwise_cons.mp hs).2
      rcases List.mem_cons.mp hsm with hsx | hsxs
      · subst hsx
        cases xs with
        | nil =>
            rcases List.mem_cons.mp hem with h | h
            · omega
            · simp at h
        | cons y ys =>
            have hey : e = y := by
              rcases List.mem_cons.mp hem with h | h
              · omega
              · rcases List.mem_cons.mp h with h' | h'
                · exact h'
                · exfalso
                  have hy : ∀ a ∈ ys, y < a :=
                    (List.pairwise_cons.mp hxs).1
                  have h1 : s < y := hx y (by simp)
                  have h2 : y < e := hy e h'
                  exact hbetween y (by simp) ⟨h1, h2⟩
            subst hey
            rw [show (s :: e :: ys).tail = e :: ys from rfl, List.zip_cons_cons]
            exact List.mem_cons_self _ _
      · have hem' : e ∈ xs := by
          rcases List.mem_cons.mp hem with h | h
          · exfalso
            have : x < s := hx s hsxs
            omega
          · exact h
        have hmem' : (s, e) ∈ xs.zip xs.tail :=
          ih hxs hsxs hem' (fun m hm => hbetween m (by simp [hm]))
        cases xs with
        | nil => simp at hsxs
        | cons y ys =>
            rw [show (x :: y :: ys).tail = y :: ys from rfl, List.zip_cons_cons]
            exact List.mem_cons_of_mem _ hmem'
  
/-- At most one consecutive-anchor pair strictly contains a given index. -/
theorem contains_unique {l : List ℕ} (hs : List.Pairwise (· < ·) l) {p q : ℕ × ℕ}
    (hp : p ∈ l.zip l.tail) (hq : q ∈ l.zip l.tail) (k : ℕ)
    (hp1 : p.1 < k) (hp2 : k < p.2) (hq1 : q.1 < k) (hq2 : k < q.2) : p = q := by
  obtain ⟨hp1m, hp2m, hplt, hpadj⟩ := zip_tail_adjacent hs hp
  obtain ⟨hq1m, hq2m, hqlt, hqadj⟩ := zip_tail_adjacent hs hq
  have e1 : p.1 = q.1 := by
    rcases hpadj q.1 hq1m with h | h
    · rcases hqadj p.1 hp1m with h' | h'
      · omega
      · omega
    · omega
  have e2 : p.2 = q.2 := by
    rcases hpadj q.2 hq2m with h | h
    · omega
    · rcases hqadj p.2 hp2m with h' | h'
      · omega
      · omega
  exact Prod.ext e1 e2

/-! ## Characterizing the bridged buffer -/

/-- With fewer than two anchors no pair is processed, so `velocity_smoothed`
always equals the fold over the consecutive-anchor pairs. -/
theorem velocity_smoothed_eq_foldl (raw : List ℚ) :
    velocity_smoothed raw =
      ((non_zero_indices raw).zip (non_zero_indices raw).tail).foldl
        (bridge_step raw) raw := by
  unfold velocity_smoothed
  by_cases h : 1 < (non_zero_indices raw).length
  · simp [h]
  · cases hnz : non_zero_indices raw with
    | nil => simp [hnz]
    | cons a t =>
        have hlen : (a :: t).length ≤ 1 := by
          rw [← hnz]; omega
        have ht : t = [] := by
          simp only [List.length_cons] at hlen
          exact List.eq_nil_of_length_eq_zero (by omega)
        subst ht
        simp [hnz]

/-- The smoother preserves the buffer length. -/
theorem velocity_smoothed_length (raw : List ℚ) :
    (velocity_smoothed raw).length = raw.length := by
  rw [velocity_smoothed_eq_foldl, foldl_bridge_length]

/-- Anchor slots (raw value positive) are never overwritten by bridging. -/
theorem velocity_smoothed_anchor (raw : List ℚ) (k : ℕ) (hk : k < raw.length)
    (hpos : 0 < raw.getD k 0) (d : ℚ) :
    (velocity_smoothed raw).getD k d = raw.getD k d := by
  rw [velocity_smoothed_eq_foldl]
  apply foldl_bridge_frame
  intro p hp hc
  obtain ⟨_, _, _, hadj⟩ := zip_tail_adjacent (non_zero_indices_sorted raw) hp
  have hkmem : k ∈ non_zero_indices raw := (mem_non_zero_indices raw k).mpr ⟨hk, hpos⟩
  rcases hadj k hkmem with h | h
  · omega
  · omega

/-- A slot strictly inside a consecutive-anchor pair whose gap passes the test
receives its bridged value. -/
theorem velocity_smoothed_bridged (raw : List ℚ) (s e k : ℕ)
    (hmem : (s, e) ∈ (non_zero_indices raw).zip (non_zero_indices raw).tail)
    (hg1 : e - s - 1 ≤ gap_threshold) (hg2 : 0 < e - s - 1)
    (h1 : s < k) (h2 : k < e) :
    (velocity_smoothed raw).getD k 0 =
      bridged_vel (raw.getD s 0) (raw.getD e 0) (e - s - 1) (k - s) := by
  rw [velocity_smoothed_eq_foldl]
  have hel : e ≤ raw.length := by
    have he : e ∈ non_zero_indices raw :=
      (zip_tail_adjacent (non_zero_indices_sorted raw) hmem).2.1
    exact le_of_lt ((mem_non_zero_indices raw e).mp he).1
  exact foldl_bridge_write raw s e k 0 ⟨hg1, hg2⟩ h1 h2 hel _ raw rfl hmem
    (fun p hp hpk1 hpk2 =>
      contains_unique (non_zero_indices_sorted raw) hp hmem k hpk1 hpk2 h1 h2)

/-- A slot contained in no passing consecutive-anchor pair keeps its raw value. -/
theorem velocity_smoothed_untouched (raw : List ℚ) (k : ℕ) (d : ℚ)
    (h : ∀ p ∈ (non_zero_indices raw).zip (non_zero_indices raw).tail,
      ¬(p.1 < k ∧ k < p.2 ∧ p.2 - p.1 - 1 ≤ gap_threshold ∧ 0 < p.2 - p.1 - 1)) :
    (velocity_smoothed raw).getD k d = raw.getD k d := by
  rw [velocity_smoothed_eq_foldl]
  exact foldl_bridge_frame raw k d _ raw h

/-- Two anchors with only zero samples strictly between them form a
consecutive-anchor pair. -/
theorem adjacency_mem (raw : List ℚ) (s e : ℕ)
    (hs : 0 < raw.getD s 0) (he : 0 < raw.getD e 0) (hse : s < e) (hel : e < raw.length)
    (hzero : ∀ m, m < e → s < m → raw.getD m 0 = 0) :
    (s, e) ∈ (non_zero_indices raw).zip (non_zero_indices raw).tail := by
  apply adjacent_of_no_anchor_between (non_zero_indices_sorted raw)
    ((mem_non_zero_indices raw s).mpr ⟨by omega, hs⟩)
    ((mem_non_zero_indices raw e).mpr ⟨hel, he⟩) hse
  intro m hm hc
  have hmp := ((mem_non_zero_indices raw m).mp hm).2
  rw [hzero m hc.2 hc.1] at hmp
  exact lt_irrefl 0 hmp

/-! ## Algebra of the interpolated values -/

/-- The interpolation at offset 0 is the left anchor's velocity. -/
theorem interp_vel_zero (sv ev : ℚ) (g : ℕ) : interp_vel sv ev g 0 = sv := by
  unfold interp_vel
  push_cast
  rw [zero_div]
  ring

/-- The interpolation at offset `g + 1` is the right anchor's velocity. -/
theorem interp_vel_last (sv ev : ℚ) (g : ℕ) : interp_vel sv ev g (g + 1) = ev := by
  unfold interp_vel
  have hg : ((g : ℚ) + 1) ≠ 0 := by positivity
  push_cast
  rw [div_self hg]
  ring

/-- Within the gap the interpolation never sinks below the smaller anchor. -/
theorem min_le_interp_vel (sv ev : ℚ) (g j : ℕ) (hj : j ≤ g + 1) :
    min sv ev ≤ interp_vel sv ev g j := by
  unfold interp_vel
  have hgpos : (0 : ℚ) < (g : ℚ) + 1 := by positivity
  have ha0 : (0 : ℚ) ≤ (j : ℚ) / ((g : ℚ) + 1) := by positivity
  have ha1 : (j : ℚ) / ((g : ℚ) + 1) ≤ 1 := by
    rw [div_le_one hgpos]
    exact_mod_cast by exact_mod_cast Nat.cast_le.mpr hj
  nlinarith [min_le_left sv ev, min_le_right sv ev,
    mul_nonneg (sub_nonneg.mpr (min_le_left sv ev)) (sub_nonneg.mpr ha1),
    mul_nonneg (sub_nonneg.mpr (min_le_right sv ev)) ha0]

/-- For positive anchors the 0.7-floor never binds: the stored bridged value is
the plain linear interpolation. -/
theorem bridged_vel_eq_interp (sv ev : ℚ) (g j : ℕ) (hsv : 0 < sv) (hev : 0 < ev)
    (hj : j ≤ g + 1) :
    bridged_vel sv ev g j = interp_vel sv ev g j := by
  unfold bridged_vel
  apply max_eq_left
  have h1 : min sv ev ≤ interp_vel sv ev g j := min_le_interp_vel sv ev g j hj
  have h2 : (0 : ℚ) < min sv ev := lt_min hsv hev
  nlinarith

/-- For positive anchors every interpolated value is positive. -/
theorem interp_vel_pos (sv ev : ℚ) (g j : ℕ) (hsv : 0 < sv) (hev : 0 < ev)
    (hj : j ≤ g + 1) : 0 < interp_vel sv ev g j :=
  lt_of_lt_of_le (lt_min hsv hev) (min_le_interp_vel sv ev g j hj)

/-- Three consecutive interpolated values are collinear: their centered mean is
the middle one. -/
theorem interp_vel_avg (sv ev : ℚ) (g j : ℕ) (hj : 1 ≤ j) :
    (interp_vel sv ev g (j - 1) + interp_vel sv ev g j + interp_vel sv ev g (j + 1)) / 3 =
      interp_vel sv ev g j := by
  unfold interp_vel
  have hg : ((g : ℚ) + 1) ≠ 0 := by positivity
  have hcast : ((j - 1 : ℕ) : ℚ) = (j : ℚ) - 1 := by
    have : (1 : ℕ) ≤ j := hj
    push_cast [this]
    ring
  rw [hcast]
  push_cast
  field_simp
  ring

/-- Along a bridged segment every slot `s + j` (anchors included) holds the
linear interpolation at offset `j`. -/
theorem velocity_smoothed_segment (raw : List ℚ) (s e : ℕ)
    (hmem : (s, e) ∈ (non_zero_indices raw).zip (non_zero_indices raw).tail)
    (hg1 : e - s - 1 ≤ gap_threshold) (hg2 : 0 < e - s - 1) :
    ∀ j, j ≤ e - s → (velocity_smoothed raw).getD (s + j) 0 =
      interp_vel (raw.getD s 0) (raw.getD e 0) (e - s - 1) j := by
  obtain ⟨hsm, hem, hsep, _⟩ := zip_tail_adjacent (non_zero_indices_sorted raw) hmem
  have hse : s < e := hsep
  obtain ⟨hsl, hsp⟩ := (mem_non_zero_indices raw s).mp hsm
  obtain ⟨hel, hep⟩ := (mem_non_zero_indices raw e).mp hem
  intro j hj
  rcases Nat.eq_zero_or_pos j with hj0 | hjpos
  · subst hj0
    rw [Nat.add_zero, velocity_smoothed_anchor raw s hsl hsp 0, interp_vel_zero]
  · rcases eq_or_lt_of_le hj with hjlast | hjmid
    · have hlast : interp_vel (raw.getD s 0) (raw.getD e 0) (e - s - 1)
          ((e - s - 1) + 1) = raw.getD e 0 := interp_vel_last _ _ _
      rw [show (e - s - 1) + 1 = e - s from by omega] at hlast
      rw [hjlast, show s + (e - s) = e from by omega,
        velocity_smoothed_anchor raw e hel hep 0]
      exact hlast.symm
    · have h1 : s < s + j := by omega
      have h2 : s + j < e := by omega
      rw [velocity_smoothed_bridged raw s e (s + j) hmem hg1 hg2 h1 h2,
        show s + j - s = j from by omega,
        bridged_vel_eq_interp _ _ _ _ hsp hep (by omega)]

/-- The moving-average pass preserves the length. -/
theorem velocity_final_length (sm : List ℚ) : (velocity_final sm).length = sm.length := by
  simp [velocity_final]

/-- Pointwise description of the moving-average pass. -/
theorem velocity_final_getD (sm : List ℚ) (k : ℕ) (hk : k < sm.length) (d : ℚ) :
    (velocity_final sm).getD k d =
      if 1 ≤ k ∧ k + 1 < sm.length ∧ 0 < sm.getD k 0 then
        (sm.getD (k - 1) 0 + sm.getD k 0 + sm.getD (k + 1) 0) / 3
      else sm.getD k 0 := by
  have hk' : k < (velocity_final sm).length := by rw [velocity_final_length]; exact hk
  rw [List.getD_eq_getElem _ _ hk']
  simp only [velocity_final, List.getElem_map, List.getElem_range]

/-! ## Claim C4: bridging small gaps -/

/-- Claim C4: between consecutive anchors separated by `0 < G ≤ 20` zero
samples, every gap slot receives the linear interpolation of the two anchor
velocities floored at `0.7 × min(start, end)`; a run of zeros touching either
end of the buffer (no anchor on one side) is never bridged. -/
theorem gap_bridging_interpolates :
    (∀ (raw : List ℚ) (s e : ℕ),
      0 < raw.getD s 0 → 0 < raw.getD e 0 → s < e → e < raw.length →
      (∀ m, m < e → s < m → raw.getD m 0 = 0) →
      0 < e - s - 1 → e - s - 1 ≤ gap_threshold →
      ∀ k, s < k → k < e →
        (velocity_smoothed raw).getD k 0 =
          max (interp_vel (raw.getD s 0) (raw.getD e 0) (e - s - 1) (k - s))
            (min (raw.getD s 0) (raw.getD e 0) * (7 / 10))) ∧
    (∀ (raw : List ℚ) (k : ℕ), k < raw.length →
      ((∀ j, j ≤ k → ¬ 0 < raw.getD j 0) ∨
       (∀ j, j < raw.length → k ≤ j → ¬ 0 < raw.getD j 0)) →
      (velocity_smoothed raw).getD k 0 = raw.getD k 0) := by
  constructor
  · intro raw s e hs he hse hel hzero hg2 hg1 k h1 h2
    rw [velocity_smoothed_bridged raw s e k (adjacency_mem raw s e hs he hse hel hzero)
      hg1 hg2 h1 h2]
    rfl
  · intro raw k hk hedge
    apply velocity_smoothed_untouched
    intro p hp hc
    obtain ⟨hp1, hp2, _, _⟩ := zip_tail_adjacent (non_zero_indices_sorted raw) hp
    obtain ⟨hp1l, hp1pos⟩ := (mem_non_zero_indices raw p.1).mp hp1
    obtain ⟨hp2l, hp2pos⟩ := (mem_non_zero_indices raw p.2).mp hp2
    rcases hedge with hl | hr
    · exact hl p.1 (by omega) hp1pos
    · exact hr p.2 hp2l (by omega) hp2pos

/-- Claim C4, witness: anchors 80 and 100 separated by 5 zeros produce the
floored interpolation at slot 2; the five bridged values 250/3, 260/3, 90,
280/3, 290/3 climb strictly from 80 toward 100 and all lie at or above
0.7×80 = 56; and a leading run of zeros (no anchor on the left) stays raw. -/
theorem gap_bridging_interpolates_witness :
    (velocity_smoothed [80, 0, 0, 0, 0, 0, 100]).getD 2 0 =
      max (interp_vel (([80, 0, 0, 0, 0, 0, 100] : List ℚ).getD 0 0)
          (([80, 0, 0, 0, 0, 0, 100] : List ℚ).getD 6 0) (6 - 0 - 1) (2 - 0))
        (min (([80, 0, 0, 0, 0, 0, 100] : List ℚ).getD 0 0)
          (([80, 0, 0, 0, 0, 0, 100] : List ℚ).getD 6 0) * (7 / 10)) ∧
    velocity_smoothed [80, 0, 0, 0, 0, 0, 100] =
      [80, 250 / 3, 260 / 3, 90, 280 / 3, 290 / 3, 100] ∧
    ((56 : ℚ) ≤ 250 / 3 ∧ (80 : ℚ) < 250 / 3 ∧ (250 / 3 : ℚ) < 260 / 3 ∧
     (260 / 3 : ℚ) < 90 ∧ (90 : ℚ) < 280 / 3 ∧ (280 / 3 : ℚ) < 290 / 3 ∧
     (290 / 3 : ℚ) < 100) ∧
    (velocity_smoothed [0, 0, 80]).getD 1 0 = ([0, 0, 80] : List ℚ).getD 1 0 := by
  refine ⟨?_, ?_, by norm_num, ?_⟩
  · exact gap_bridging_interpolates.1 [80, 0, 0, 0, 0, 0, 100] 0 6 (by decide) (by decide)
      (by decide) (by decide) (by decide) (by decide) (by decide) 2 (by decide) (by decide)
  · norm_num [velocity_smoothed, non_zero_indices, bridge_step, write_gap, write_upto,
      bridged_vel, interp_vel, gap_threshold, List.range_succ]
  · exact gap_bridging_interpolates.2 [0, 0, 80] 1 (by decide) (Or.inl (by decide))

/-! ## Claim C5: gaps above the threshold stay zero -/

/-- Claim C5: a gap of more than 20 zeros between consecutive anchors is left
untouched by the interpolation pass and by the moving-average pass: every slot
of the gap is exactly zero in the final output. -/
theorem long_gap_stays_zero (raw : List ℚ) (s e : ℕ)
    (hs : 0 < raw.getD s 0) (he : 0 < raw.getD e 0) (hse : s < e) (hel : e < raw.length)
    (hzero : ∀ m, m < e → s < m → raw.getD m 0 = 0)
    (hbig : gap_threshold < e - s - 1) :
    ∀ k, s < k → k < e →
      (velocity_smoothed raw).getD k 0 = 0 ∧
      (velocity_final (velocity_smoothed raw)).getD k 0 = 0 := by
  intro k h1 h2
  have hmem := adjacency_mem raw s e hs he hse hel hzero
  have hsm0 : (velocity_smoothed raw).getD k 0 = 0 := by
    rw [velocity_smoothed_untouched raw k 0 ?_]
    · exact hzero k h2 h1
    · intro p hp hc
      have hpe : p = (s, e) :=
        contains_unique (non_zero_indices_sorted raw) hp hmem k hc.1 hc.2.1 h1 h2
      rw [hpe] at hc
      have hcc : e - s - 1 ≤ gap_threshold := hc.2.2.1
      omega
  have hkl : k < (velocity_smoothed raw).length := by
    rw [velocity_smoothed_length]; omega
  refine ⟨hsm0, ?_⟩
  have hcond : ¬(1 ≤ k ∧ k + 1 < (velocity_smoothed raw).length ∧
      0 < (velocity_smoothed raw).getD k 0) := by
    rw [hsm0]
    intro hcond
    exact lt_irrefl 0 hcond.2.2
  rw [velocity_final_getD _ k hkl 0, if_neg hcond, hsm0]

/-- Claim C5, witness: anchors 80 and 100 separated by 25 zeros; the middle of
the gap stays zero through both passes. -/
theorem long_gap_stays_zero_witness :
    (velocity_smoothed ((80 : ℚ) :: (List.replicate 25 0 ++ [100]))).getD 13 0 = 0 ∧
    (velocity_final
      (velocity_smoothed ((80 : ℚ) :: (List.replicate 25 0 ++ [100])))).getD 13 0 = 0 :=
  long_gap_stays_zero ((80 : ℚ) :: (List.replicate 25 0 ++ [100])) 0 26
    (by decide) (by decide) (by decide) (by decide) (by decide) (by decide) 13
    (by decide) (by decide)

/-! ## Claim C10: the 0.7-floor never alters a bridged value -/

/-- Claim C10: on every bridged gap the interpolated value already sits at or
above `min(start, end)`, hence above the floor `0.7 × min(start, end)`, so the
`max` never changes anything and the bridged segment is plain linear
interpolation. -/
theorem bridging_floor_never_binds (raw : List ℚ) (s e : ℕ)
    (hs : 0 < raw.getD s 0) (he : 0 < raw.getD e 0) (hse : s < e) (hel : e < raw.length)
    (hzero : ∀ m, m < e → s < m → raw.getD m 0 = 0)
    (hg2 : 0 < e - s - 1) (hg1 : e - s - 1 ≤ gap_threshold) :
    ∀ k, s < k → k < e →
      min (raw.getD s 0) (raw.getD e 0) ≤
        interp_vel (raw.getD s 0) (raw.getD e 0) (e - s - 1) (k - s) ∧
      bridged_vel (raw.getD s 0) (raw.getD e 0) (e - s - 1) (k - s) =
        interp_vel (raw.getD s 0) (raw.getD e 0) (e - s - 1) (k - s) ∧
      (velocity_smoothed raw).getD k 0 =
        interp_vel (raw.getD s 0) (raw.getD e 0) (e - s - 1) (k - s) := by
  intro k h1 h2
  have hmem := adjacency_mem raw s e hs he hse hel hzero
  have hj : k - s ≤ (e - s - 1) + 1 := by omega
  refine ⟨min_le_interp_vel _ _ _ _ hj, bridged_vel_eq_interp _ _ _ _ hs he hj, ?_⟩
  rw [velocity_smoothed_bridged raw s e k hmem hg1 hg2 h1 h2,
    bridged_vel_eq_interp _ _ _ _ hs he hj]

/-- Claim C10, witness: in the 80→100 gap of five zeros, slot 3 holds the plain
linear interpolation (no flooring applied). -/
theorem bridging_floor_never_binds_witness :
    (velocity_smoothed [80, 0, 0, 0, 0, 0, 100]).getD 3 0 =
      interp_vel (([80, 0, 0, 0, 0, 0, 100] : List ℚ).getD 0 0)
        (([80, 0, 0, 0, 0, 0, 100] : List ℚ).getD 6 0) (6 - 0 - 1) (3 - 0) :=
  (bridging_floor_never_binds [80, 0, 0, 0, 0, 0, 100] 0 6 (by decide) (by decide)
    (by decide) (by decide) (by decide) (by decide) (by decide) 3
    (by decide) (by decide)).2.2

/-! ## Claim C1: who gets the moving average -/

/-- Claim C1: in the final output, the two end slots always keep their bridged
value; an interior slot whose raw (pre-bridge) velocity is nonzero becomes the
3-point centered mean of the bridged values; and an interior slot whose raw
velocity is zero keeps its bridged value — if it was bridged, the code does
average it (the guard tests the bridged value, not the raw one), but bridged
values are collinear, so the average equals the bridged value itself. -/
theorem moving_average_on_raw_support (raw : List ℚ) (hpos : ∀ x ∈ raw, 0 ≤ x)
    (k : ℕ) (hk : k < raw.length) :
    ((k = 0 ∨ k + 1 = raw.length) →
      (velocity_final (velocity_smoothed raw)).getD k 0 =
        (velocity_smoothed raw).getD k 0) ∧
    (0 < k → k + 1 < raw.length → raw.getD k 0 ≠ 0 →
      (velocity_final (velocity_smoothed raw)).getD k 0 =
        ((velocity_smoothed raw).getD (k - 1) 0 + (velocity_smoothed raw).getD k 0 +
          (velocity_smoothed raw).getD (k + 1) 0) / 3) ∧
    (0 < k → k + 1 < raw.length → raw.getD k 0 = 0 →
      (velocity_final (velocity_smoothed raw)).getD k 0 =
        (velocity_smoothed raw).getD k 0) := by
  have hlen : (velocity_smoothed raw).length = raw.length := velocity_smoothed_length raw
  have hkl : k < (velocity_smoothed raw).length := by omega
  have hfin := velocity_final_getD (velocity_smoothed raw) k hkl 0
  refine ⟨?_, ?_, ?_⟩
  · intro hends
    rw [hfin, if_neg]
    intro hcond
    have h1 := hcond.1
    have h2 := hcond.2.1
    omega
  · intro hk0 hk1 hne
    have hkpos : 0 < raw.getD k 0 := by
      have hmem : raw.getD k 0 ∈ raw := by
        rw [List.getD_eq_getElem raw 0 hk]
        exact List.getElem_mem hk
      exact lt_of_le_of_ne (hpos _ hmem) (Ne.symm hne)
    have hanch : (velocity_smoothed raw).getD k 0 = raw.getD k 0 :=
      velocity_smoothed_anchor raw k hk hkpos 0
    rw [hfin, if_pos ⟨by omega, by omega, by rw [hanch]; exact hkpos⟩]
  · intro hk0 hk1 hz
    by_cases hex : ∃ p ∈ (non_zero_indices raw).zip (non_zero_indices raw).tail,
        p.1 < k ∧ k < p.2 ∧ p.2 - p.1 - 1 ≤ gap_threshold ∧ 0 < p.2 - p.1 - 1
    · obtain ⟨p, hp, hc⟩ := hex
      obtain ⟨s, e⟩ := p
      obtain ⟨hsm, hem, _, _⟩ := zip_tail_adjacent (non_zero_indices_sorted raw) hp
      obtain ⟨hsl, hsp⟩ := (mem_non_zero_indices raw s).mp hsm
      obtain ⟨hel, hep⟩ := (mem_non_zero_indices raw e).mp hem
      have hc1 : s < k := hc.1
      have hc2 : k < e := hc.2.1
      have hg1 : e - s - 1 ≤ gap_threshold := hc.2.2.1
      have hg2 : 0 < e - s - 1 := hc.2.2.2
      have hseg := velocity_smoothed_segment raw s e hp hg1 hg2
      have hkseg : (velocity_smoothed raw).getD k 0 =
          interp_vel (raw.getD s 0) (raw.getD e 0) (e - s - 1) (k - s) := by
        have h := hseg (k - s) (by omega)
        rwa [show s + (k - s) = k from by omega] at h
      have hkm1 : (velocity_smoothed raw).getD (k - 1) 0 =
          interp_vel (raw.getD s 0) (raw.getD e 0) (e - s - 1) (k - s - 1) := by
        have h := hseg (k - s - 1) (by omega)
        rwa [show s + (k - s - 1) = k - 1 from by omega] at h
      have hkp1 : (velocity_smoothed raw).getD (k + 1) 0 =
          interp_vel (raw.getD s 0) (raw.getD e 0) (e - s - 1) (k - s + 1) := by
        have h := hseg (k - s + 1) (by omega)
        rwa [show s + (k - s + 1) = k + 1 from by omega] at h
      have hkpos : 0 < (velocity_smoothed raw).getD k 0 := by
        rw [hkseg]
        exact interp_vel_pos _ _ _ _ hsp hep (by omega)
      rw [hfin, if_pos ⟨by omega, by omega, hkpos⟩, hkm1, hkseg, hkp1]
      exact interp_vel_avg (raw.getD s 0) (raw.getD e 0) (e - s - 1) (k - s) (by omega)
    · have huntouched : (velocity_smoothed raw).getD k 0 = raw.getD k 0 :=
        velocity_smoothed_untouched raw k 0 (fun p hp hc => hex ⟨p, hp, hc⟩)
      have hcond : ¬(1 ≤ k ∧ k + 1 < (velocity_smoothed raw).length ∧
          0 < (velocity_smoothed raw).getD k 0) := by
        rw [huntouched, hz]
        intro hcond
        exact lt_irrefl 0 hcond.2.2
      rw [hfin, if_neg hcond]

/-- Claim C1, witness: in the buffer [0, 80, 0, 100, 0] the interior anchor at
slot 1 is averaged with its bridged neighbors, the bridged slot 2 (raw zero) is
left at its bridged value, and slot 0 is left alone. -/
theorem moving_average_on_raw_support_witness :
    ((velocity_final (velocity_smoothed [0, 80, 0, 100, 0])).getD 1 0 =
      ((velocity_smoothed [0, 80, 0, 100, 0]).getD 0 0 +
        (velocity_smoothed [0, 80, 0, 100, 0]).getD 1 0 +
        (velocity_smoothed [0, 80, 0, 100, 0]).getD 2 0) / 3) ∧
    ((velocity_final (velocity_smoothed [0, 80, 0, 100, 0])).getD 2 0 =
      (velocity_smoothed [0, 80, 0, 100, 0]).getD 2 0) ∧
    ((velocity_final (velocity_smoothed [0, 80, 0, 100, 0])).getD 0 0 =
      (velocity_smoothed [0, 80, 0, 100, 0]).getD 0 0) :=
  ⟨(moving_average_on_raw_support [0, 80, 0, 100, 0] (by decide) 1 (by decide)).2.1
      (by decide) (by decide) (by decide),
   (moving_average_on_raw_support [0, 80, 0, 100, 0] (by decide) 2 (by decide)).2.2
      (by decide) (by decide) (by decide),
   (moving_average_on_raw_support [0, 80, 0, 100, 0] (by decide) 0 (by decide)).1
      (Or.inl rfl)⟩
